import Mathlib

set_option linter.unusedVariables false

/-!
Verification of the outspeed/realtime streaming core against its
specification.  The development shallowly embeds the Python source:

* `StreamM` models `realtime/streams.py` (`Stream` and its subclasses):
  the underlying `asyncio.Queue` buffer, the `_cache` used by the peek
  methods, and the `_clones` registered by `clone()`.
* `mapRun`, `mergeRun`, `clStep` model the operators in
  `realtime/ops/map.py`, `realtime/ops/merge.py` (also
  `outspeed/ops/merge.py`) and `realtime/ops/combine_latest.py`.
* `execVadStep` models one inner-loop iteration of
  `SileroVAD.execute_vad` in `realtime/plugins/silero_vad.py`.
* `recvStep` models `AudioRTCDriver.recv` in
  `realtime/streaming_endpoint/AudioRTCDriver.py`.
* `clockGetPlaybackTime`/`clockIncrementPlaybackTime` model
  `realtime/utils/clock.py` (the `outspeed` variant lacks the increment).
* `llmInterruptStep`, `ttsInterruptStep`, `ttsSynthStep` model the
  interrupt watchers and synthesis loop in
  `outspeed/plugins/openai_llm.py` and
  `outspeed/plugins/eleven_labs_tts.py`.

Machine integers do not occur on any modelled path; Python floats used
for durations, volumes and timestamps are modelled as rationals.
-/

/-- Model of `realtime.streams.Stream`: the underlying `asyncio.Queue`
buffer (`queue`, FIFO with head at the front), the peek cache `_cache`,
and the registered `_clones`, each of which is itself a full Stream. -/
inductive StreamM (α : Type) : Type where
  | mk (queue : List α) (cache : List α) (clones : List (StreamM α)) : StreamM α

namespace StreamM

variable {α : Type}

/-- The underlying `asyncio.Queue` buffer. -/
def queue : StreamM α → List α
  | mk q _ _ => q

/-- The `_cache` list filled by the peek methods. -/
def cache : StreamM α → List α
  | mk _ c _ => c

/-- The `_clones` list registered by `clone()`. -/
def clones : StreamM α → List (StreamM α)
  | mk _ _ cl => cl

/-- `Stream.__init__`: empty buffer, empty cache, no clones. -/
def fresh : StreamM α := mk [] [] []

/-- `Stream.put_nowait`: append the item to the own buffer and,
recursively, to every registered clone. -/
def put_nowait (x : α) : StreamM α → StreamM α
  | mk q c cl => mk (q ++ [x]) c (cl.attach.map fun y => put_nowait x y.val)
decreasing_by
  have := List.sizeOf_lt_of_mem y.property
  simp only [mk.sizeOf_spec]
  omega

/-- `Stream.get_nowait`: pop the cache head if the cache is non-empty,
else pop the buffer head (`None` models the `QueueEmpty` exception).
Returns the popped item together with the successor state. -/
def get_nowait : StreamM α → Option (α × StreamM α)
  | mk q (x :: c) cl => some (x, mk q c cl)
  | mk (x :: q) [] cl => some (x, mk q [] cl)
  | mk [] [] _ => none

/-- `Stream.qsize`: `super().qsize() + len(self._cache)`. -/
def qsize : StreamM α → Nat
  | mk q c _ => q.length + c.length

/-- The inherited `asyncio.Queue.empty`, which inspects only the
underlying buffer and is unaware of `_cache`. -/
def emptyInherited : StreamM α → Bool
  | mk q _ _ => q.isEmpty

/-- `Stream.get_first_element_without_removing`: return the cache head if
cached, else move the buffer head into the cache and return it; `None`
when both are empty. -/
def get_first_element_without_removing : StreamM α → Option α × StreamM α
  | mk q (x :: c) cl => (some x, mk q (x :: c) cl)
  | mk (x :: q) [] cl => (some x, mk q [x] cl)
  | mk [] [] cl => (none, mk [] [] cl)

/-- The transfer loop of `Stream.get_element_at_index`:
`while len(self._cache) <= index and super().qsize() > 0:
self._cache.append(super().get_nowait())`.  Returns the remaining buffer
and the grown cache. -/
def cacheFill (i : Nat) : List α → List α → List α × List α
  | [], c => ([], c)
  | x :: q, c => if c.length ≤ i then cacheFill i q (c ++ [x]) else (x :: q, c)

/-- `Stream.get_element_at_index`: fill the cache up to the index, then
`self._cache.pop(index)` when the index is in range, else `None`. -/
def get_element_at_index (i : Nat) : StreamM α → Option α × StreamM α
  | mk q c cl =>
    let p := cacheFill i q c
    if h : i < p.2.length then (some (p.2.get ⟨i, h⟩), mk p.1 (p.2.eraseIdx i) cl)
    else (none, mk p.1 p.2 cl)

/-- `clone()` (as on `AudioStream`/`VideoStream`/`TextStream`/…): build a
fresh empty Stream and append it to `_clones`.  In this functional model
the clone's state lives inside the parent's `clones` list. -/
def clone : StreamM α → StreamM α
  | mk q c cl => mk q c (cl ++ [fresh])

/-- A sequence of `put_nowait` calls, in order. -/
def putAll (xs : List α) (s : StreamM α) : StreamM α :=
  xs.foldl (fun t x => put_nowait x t) s

/-- `get_nowait` invoked on the `i`-th registered clone: only that
clone's state changes. -/
def getCloneNowait (i : Nat) : StreamM α → Option α × StreamM α
  | mk q c cl =>
    match cl[i]? with
    | none => (none, mk q c cl)
    | some t =>
      match get_nowait t with
      | none => (none, mk q c cl)
      | some p => (some p.1, mk q c (cl.set i p.2))

/-- `get_nowait` on the stream itself, keeping the state (the
`QueueEmpty` case leaves the state unchanged). -/
def rootAfterPop (s : StreamM α) : StreamM α :=
  match get_nowait s with
  | none => s
  | some p => p.2

/-- The unconsumed items of a stream in FIFO delivery order: the cache
(older items) followed by the buffer. -/
def contents : StreamM α → List α
  | mk q c _ => c ++ q

theorem put_nowait_mk (x : α) (q c : List α) (cl : List (StreamM α)) :
    put_nowait x (mk q c cl) = mk (q ++ [x]) c (cl.map (put_nowait x)) := by
  rw [put_nowait, List.attach_map_val]

theorem putAll_nil (s : StreamM α) : putAll [] s = s := rfl

theorem putAll_cons (x : α) (xs : List α) (s : StreamM α) :
    putAll (x :: xs) s = putAll xs (put_nowait x s) := rfl

theorem putAll_mk (xs : List α) (q c : List α) (cl : List (StreamM α)) :
    putAll xs (mk q c cl) = mk (q ++ xs) c (cl.map (putAll xs)) := by
  induction xs generalizing q cl with
  | nil =>
    have hid : putAll ([] : List α) = fun s => s := funext fun s => rfl
    rw [hid]
    simp
  | cons x xs ih =>
    have hcomp : putAll xs ∘ put_nowait x = putAll (x :: xs) := funext fun s => rfl
    rw [putAll_cons, put_nowait_mk, ih, List.map_map, hcomp]
    simp

theorem get_nowait_qsize {s : StreamM α} {p : α × StreamM α}
    (h : get_nowait s = some p) : p.2.qsize < s.qsize := by
  cases s with
  | mk q c cl =>
    cases c with
    | cons x c => simp [get_nowait] at h; subst h; simp [qsize]
    | nil =>
      cases q with
      | nil => simp [get_nowait] at h
      | cons x q => simp [get_nowait] at h; subst h; simp [qsize]

/-- Repeated `get_nowait` until `QueueEmpty`: the observable FIFO
delivery sequence of a stream. -/
def drainAll : StreamM α → List α
  | s =>
    match h : get_nowait s with
    | none => []
    | some p => p.1 :: drainAll p.2
termination_by s => s.qsize
decreasing_by
  exact get_nowait_qsize h

theorem get_nowait_contents_none {s : StreamM α} (h : get_nowait s = none) :
    contents s = [] := by
  cases s with
  | mk q c cl =>
    cases c with
    | cons x c => simp [get_nowait] at h
    | nil =>
      cases q with
      | nil => simp [contents]
      | cons x q => simp [get_nowait] at h

theorem get_nowait_contents_some {s : StreamM α} {p : α × StreamM α}
    (h : get_nowait s = some p) : contents s = p.1 :: contents p.2 := by
  cases s with
  | mk q c cl =>
    cases c with
    | cons x c => simp [get_nowait] at h; subst h; simp [contents]
    | nil =>
      cases q with
      | nil => simp [get_nowait] at h
      | cons x q => simp [get_nowait] at h; subst h; simp [contents]

theorem drainAll_eq (s : StreamM α) : drainAll s = contents s := by
  generalize hn : s.qsize = n
  induction n using Nat.strong_induction_on generalizing s with
  | _ n ih =>
    rw [drainAll]
    split
    next h => rw [get_nowait_contents_none h]
    next p h =>
      rw [get_nowait_contents_some h]
      have hlt := get_nowait_qsize h
      rw [ih p.2.qsize (by omega) p.2 rfl]

theorem qsize_eq_contents_length (s : StreamM α) :
    qsize s = (contents s).length := by
  cases s with
  | mk q c cl => simp [qsize, contents]; omega

/-- The state built by the clone-isolation scenario of the spec:
items `ys` are written first, then two clones are created, then items
`xs` are written. -/
def cloneScenario (α : Type) (ys xs : List α) : StreamM α :=
  putAll xs (clone (clone (putAll ys (fresh : StreamM α))))

theorem cloneScenario_eq (α : Type) (ys xs : List α) :
    cloneScenario α ys xs = mk (ys ++ xs) [] [mk xs [] [], mk xs [] []] := by
  have h1 : putAll ys (mk [] [] [] : StreamM α) = mk ys [] [] := by
    rw [putAll_mk]; simp
  have h2 : putAll xs (mk [] [] [] : StreamM α) = mk xs [] [] := by
    rw [putAll_mk]; simp
  rw [cloneScenario, fresh, h1, clone, clone, putAll_mk]
  simp [fresh, h2]

end StreamM

namespace StreamM

/-- C1: clone isolation and no replay (spec §8, `Stream.put_nowait` and
`clone` in `realtime/streams.py`).  After items `ys` are written, two
clones `c1`, `c2` are created, and items `xs` are written: every item of
`xs` is observable in write order on the origin and on both clones; no
item written before the clones existed is observable on a clone; and
removing an item from the origin or from one clone does not remove it
from any of the other queues. -/
theorem claim1_clone_isolation (α : Type) (ys xs : List α) :
    drainAll (cloneScenario α ys xs) = ys ++ xs
    ∧ (cloneScenario α ys xs).clones.map contents = [xs, xs]
    ∧ contents (rootAfterPop (cloneScenario α ys xs)) = (ys ++ xs).drop 1
    ∧ (rootAfterPop (cloneScenario α ys xs)).clones.map contents = [xs, xs]
    ∧ (getCloneNowait 0 (cloneScenario α ys xs)).1 = xs.head?
    ∧ contents (getCloneNowait 0 (cloneScenario α ys xs)).2 = ys ++ xs
    ∧ (getCloneNowait 0 (cloneScenario α ys xs)).2.clones.map contents
        = [xs.drop 1, xs]
    ∧ contents (getCloneNowait 1 (cloneScenario α ys xs)).2 = ys ++ xs
    ∧ (getCloneNowait 1 (cloneScenario α ys xs)).2.clones.map contents
        = [xs, xs.drop 1] := by
  rw [cloneScenario_eq]
  refine ⟨?_, ?_, ?_, ?_, ?_, ?_, ?_, ?_, ?_⟩
  · simp [drainAll_eq, contents]
  · simp [clones, contents]
  · cases h : ys ++ xs with
    | nil => simp [rootAfterPop, get_nowait, h, contents]
    | cons z rest => simp [rootAfterPop, get_nowait, h, contents]
  · cases h : ys ++ xs with
    | nil => simp [rootAfterPop, get_nowait, h, contents, clones]
    | cons z rest => simp [rootAfterPop, get_nowait, h, contents, clones]
  · cases xs with
    | nil => simp [getCloneNowait, get_nowait]
    | cons x rest => simp [getCloneNowait, get_nowait]
  · cases xs with
    | nil => simp [getCloneNowait, get_nowait, contents]
    | cons x rest => simp [getCloneNowait, get_nowait, contents]
  · cases xs with
    | nil => simp [getCloneNowait, get_nowait, contents, clones]
    | cons x rest => simp [getCloneNowait, get_nowait, contents, clones]
  · cases xs with
    | nil => simp [getCloneNowait, get_nowait, contents]
    | cons x rest => simp [getCloneNowait, get_nowait, contents]
  · cases xs with
    | nil => simp [getCloneNowait, get_nowait, contents, clones]
    | cons x rest => simp [getCloneNowait, get_nowait, contents, clones]

/-- The operations a consumer can run against a single `Stream`:
`put_nowait`, the two peek methods, and `get_nowait`. -/
inductive QOp (α : Type) where
  | put (x : α)
  | peekFirst
  | peekAt (i : Nat)
  | pop

/-- Run one operation against a stream (keeping only the state). -/
def applyOp (s : StreamM α) : QOp α → StreamM α
  | .put x => put_nowait x s
  | .peekFirst => (get_first_element_without_removing s).2
  | .peekAt i => (get_element_at_index i s).2
  | .pop => rootAfterPop s

/-- The value observed by one operation. -/
def retOp (s : StreamM α) : QOp α → Option α
  | .put _ => none
  | .peekFirst => (get_first_element_without_removing s).1
  | .peekAt i => (get_element_at_index i s).1
  | .pop => (get_nowait s).map fun p => p.1

/-- Abstract one-list semantics of the same operations: `put` appends,
`peekFirst` observes the head without consuming, `peekAt i` consumes the
item at index `i`, `pop` consumes the head. -/
def specApply (l : List α) : QOp α → List α
  | .put x => l ++ [x]
  | .peekFirst => l
  | .peekAt i => l.eraseIdx i
  | .pop => l.tail

/-- Abstract observation of one operation on the one-list semantics. -/
def specRet (l : List α) : QOp α → Option α
  | .put _ => none
  | .peekFirst => l.head?
  | .peekAt i => l[i]?
  | .pop => l.head?

/-- Run a sequence of operations against a stream. -/
def applyOps (s : StreamM α) (ops : List (QOp α)) : StreamM α :=
  ops.foldl applyOp s

/-- The abstract pending-item list after a sequence of operations,
starting empty. -/
def specList (ops : List (QOp α)) : List α :=
  ops.foldl specApply []

theorem cacheFill_spec (i : Nat) (q c : List α) :
    (cacheFill i q c).2 ++ (cacheFill i q c).1 = c ++ q
    ∧ ((cacheFill i q c).1 ≠ [] → i < (cacheFill i q c).2.length) := by
  induction q generalizing c with
  | nil => simp [cacheFill]
  | cons x q ih =>
    rw [cacheFill]
    split
    next hle =>
      refine ⟨?_, (ih (c ++ [x])).2⟩
      rw [(ih (c ++ [x])).1]
      simp
    next hgt =>
      exact ⟨rfl, fun _ => show i < c.length by omega⟩

theorem get_element_at_index_contents (i : Nat) (s : StreamM α) :
    contents (get_element_at_index i s).2 = (contents s).eraseIdx i := by
  cases s with
  | mk q c cl =>
    have hs := cacheFill_spec i q c
    rw [get_element_at_index]
    split
    next h =>
      simp only [contents]
      rw [← hs.1, List.eraseIdx_append_of_lt_length h]
    next h =>
      have hnil : (cacheFill i q c).1 = [] := by
        by_contra hne
        exact h (hs.2 hne)
      simp only [contents]
      rw [← hs.1, hnil, List.append_nil]
      exact (List.eraseIdx_of_length_le (by omega)).symm

theorem get_element_at_index_ret (i : Nat) (s : StreamM α) :
    (get_element_at_index i s).1 = (contents s)[i]? := by
  cases s with
  | mk q c cl =>
    have hs := cacheFill_spec i q c
    rw [get_element_at_index]
    split
    next h =>
      simp only [contents]
      rw [← hs.1, List.getElem?_append_left h, List.getElem?_eq_getElem h]
      simp
    next h =>
      have hnil : (cacheFill i q c).1 = [] := by
        by_contra hne
        exact h (hs.2 hne)
      simp only [contents]
      rw [← hs.1, hnil, List.append_nil]
      exact (List.getElem?_eq_none (by omega)).symm

theorem peek_first_contents (s : StreamM α) :
    contents (get_first_element_without_removing s).2 = contents s := by
  cases s with
  | mk q c cl =>
    cases c with
    | cons x c => simp [get_first_element_without_removing, contents]
    | nil =>
      cases q with
      | nil => simp [get_first_element_without_removing, contents]
      | cons x q => simp [get_first_element_without_removing, contents]

theorem peek_first_ret (s : StreamM α) :
    (get_first_element_without_removing s).1 = (contents s).head? := by
  cases s with
  | mk q c cl =>
    cases c with
    | cons x c => simp [get_first_element_without_removing, contents]
    | nil =>
      cases q with
      | nil => simp [get_first_element_without_removing, contents]
      | cons x q => simp [get_first_element_without_removing, contents]

theorem contents_applyOp (s : StreamM α) (op : QOp α) :
    contents (applyOp s op) = specApply (contents s) op := by
  cases op with
  | put x =>
    cases s with
    | mk q c cl =>
      rw [applyOp, put_nowait_mk]
      simp [contents, specApply]
  | peekFirst => simpa [applyOp, specApply] using peek_first_contents s
  | peekAt i => simpa [applyOp, specApply] using get_element_at_index_contents i s
  | pop =>
    rw [applyOp, specApply]
    match h : get_nowait s with
    | none =>
      have hc := get_nowait_contents_none h
      rw [rootAfterPop.eq_def, h, hc]
      rfl
    | some p =>
      have hc := get_nowait_contents_some h
      rw [rootAfterPop.eq_def, h, hc]
      rfl

theorem retOp_eq (s : StreamM α) (op : QOp α) :
    retOp s op = specRet (contents s) op := by
  cases op with
  | put x => rfl
  | peekFirst => simpa [retOp, specRet] using peek_first_ret s
  | peekAt i => simpa [retOp, specRet] using get_element_at_index_ret i s
  | pop =>
    rw [retOp, specRet]
    match h : get_nowait s with
    | none => rw [get_nowait_contents_none h]; rfl
    | some p => rw [get_nowait_contents_some h]; rfl

theorem contents_applyOps (s : StreamM α) (ops : List (QOp α)) :
    contents (applyOps s ops) = ops.foldl specApply (contents s) := by
  induction ops generalizing s with
  | nil => rfl
  | cons op ops ih =>
    rw [applyOps, List.foldl_cons, List.foldl_cons, ← applyOps, ih,
      contents_applyOp]

/-- C10: for any sequence of puts, peeks and pops against a fresh
`Stream`, the unconsumed items (including those parked in `_cache` by
the peek methods) agree with the abstract one-list FIFO semantics:
`qsize` counts them all, repeated `get_nowait` delivers them in original
write order, and every observation matches the abstract list.  The
inherited `empty()` however ignores `_cache`: after `put 0` followed by
one peek the stream reports `empty() = true` while `qsize = 1`. -/
theorem claim10_stream_cache_invariants :
    (∀ (α : Type) (ops : List (QOp α)),
        qsize (applyOps (fresh : StreamM α) ops) = (specList ops).length
        ∧ drainAll (applyOps (fresh : StreamM α) ops) = specList ops
        ∧ ∀ op, retOp (applyOps (fresh : StreamM α) ops) op
            = specRet (specList ops) op)
    ∧ emptyInherited (applyOps (fresh : StreamM Nat) [QOp.put 0, QOp.peekFirst])
        = true
    ∧ qsize (applyOps (fresh : StreamM Nat) [QOp.put 0, QOp.peekFirst]) = 1 := by
  have hc : ∀ (α : Type) (ops : List (QOp α)),
      contents (applyOps (fresh : StreamM α) ops) = specList ops := by
    intro α ops
    rw [contents_applyOps]
    rfl
  refine ⟨fun α ops => ⟨?_, ?_, fun op => ?_⟩,
    by simp [applyOps, applyOp, fresh, put_nowait_mk,
      get_first_element_without_removing, emptyInherited],
    by simp [applyOps, applyOp, fresh, put_nowait_mk,
      get_first_element_without_removing, qsize]⟩
  · rw [qsize_eq_contents_length, hc]
  · rw [drainAll_eq, hc]
  · rw [retOp_eq, hc]

end StreamM

/-! ## Stream operators: `map`, `merge`, `combine_latest` -/

namespace StreamOps

open StreamM

/-- The `run` loop of `realtime.ops.map`: read an item, apply `func`
(`none` models an exception raised inside `func`, which is caught,
logged and skipped via `continue`), else put the result on the output
stream.  The list is the finite prefix produced by the input stream. -/
def mapRun {α β : Type} (f : α → Option β) : List α → List β
  | [] => []
  | x :: xs =>
    match f x with
    | none => mapRun f xs
    | some y => y :: mapRun f xs

theorem mapRun_append {α β : Type} (f : α → Option β) (l₁ l₂ : List α) :
    mapRun f (l₁ ++ l₂) = mapRun f l₁ ++ mapRun f l₂ := by
  induction l₁ with
  | nil => rfl
  | cons x l₁ ih =>
    rw [List.cons_append, mapRun, mapRun]
    cases f x <;> simp [ih]

/-- C5: map purity under failure (spec §8, `map.run` in
`realtime/ops/map.py`).  If `func` raises on `x` but succeeds on its
neighbours `a` and `b`, the output contains the transformed `a` and `b`
but nothing for `x`, and the loop keeps transforming all later items
(`post`) — the task does not die. -/
theorem claim5_map_purity {α β : Type} (f : α → Option β)
    (pre post : List α) (a x b : α) (a' b' : β)
    (ha : f a = some a') (hx : f x = none) (hb : f b = some b') :
    mapRun f (pre ++ [a, x, b] ++ post)
      = mapRun f pre ++ a' :: b' :: mapRun f post := by
  rw [mapRun_append, mapRun_append]
  rw [mapRun, ha, mapRun, hx, mapRun, hb, mapRun]
  simp

/-- The example mapping function of the C5 witness: raises on `1`. -/
def exF : Nat → Option Nat := fun n => if n = 1 then none else some (n + 1)

/-- Witness for C5 at `pre = []`, failing item `1`, `post = [5]`. -/
theorem claim5_map_purity_witness :
    exF 0 = some 1 ∧ exF 1 = none ∧ exF 2 = some 3
    ∧ mapRun exF ([] ++ [0, 1, 2] ++ [5])
        = mapRun exF [] ++ 1 :: 3 :: mapRun exF [5] :=
  ⟨rfl, rfl, rfl, claim5_map_purity exF [] [5] 0 1 2 1 3 rfl rfl rfl⟩

/-- The two forwarding tasks of `merge.get` under a cooperative
scheduler: the Bool schedule says which task runs next; a scheduled task
forwards the head of its own input to the output (`put_nowait`), or
stays blocked in `get()` when its input is exhausted. -/
def mergeRun {α : Type} : List Bool → List α → List α → List α
  | [], _, _ => []
  | true :: s, [], ys => mergeRun s [] ys
  | true :: s, x :: xs, ys => x :: mergeRun s xs ys
  | false :: s, xs, [] => mergeRun s xs []
  | false :: s, xs, y :: ys => y :: mergeRun s xs ys

theorem mergeRun_spec {α : Type} (s : List Bool) (xs ys : List α)
    (h1 : xs.length ≤ s.count true) (h2 : ys.length ≤ s.count false) :
    (mergeRun s xs ys).Perm (xs ++ ys)
    ∧ xs.Sublist (mergeRun s xs ys) ∧ ys.Sublist (mergeRun s xs ys) := by
  induction s generalizing xs ys with
  | nil =>
    simp only [List.count_nil, Nat.le_zero, List.length_eq_zero] at h1 h2
    subst h1; subst h2
    simp [mergeRun]
  | cons b s ih =>
    cases b with
    | true =>
      have hc : (true :: s).count true = s.count true + 1 := by simp
      have hc' : (true :: s).count false = s.count false := by simp
      rw [hc] at h1
      rw [hc'] at h2
      cases xs with
      | nil =>
        have := ih [] ys (by simp) h2
        simpa [mergeRun] using this
      | cons x xs =>
        have := ih xs ys (by simp only [List.length_cons] at h1; omega) h2
        refine ⟨?_, ?_, ?_⟩
        · simpa [mergeRun] using (this.1.cons x)
        · simpa [mergeRun] using (this.2.1.cons₂ x)
        · simpa [mergeRun] using (this.2.2.cons x)
    | false =>
      have hc : (false :: s).count true = s.count true := by simp
      have hc' : (false :: s).count false = s.count false + 1 := by simp
      rw [hc] at h1
      rw [hc'] at h2
      cases ys with
      | nil =>
        have := ih xs [] h1 (by simp)
        simpa [mergeRun] using this
      | cons y ys =>
        have := ih xs ys h1 (by simp only [List.length_cons] at h2; omega)
        refine ⟨?_, ?_, ?_⟩
        · have hp : (y :: mergeRun s xs ys).Perm (y :: (xs ++ ys)) := this.1.cons y
          have hq : (y :: (xs ++ ys)).Perm (xs ++ y :: ys) :=
            (@List.perm_middle _ y xs ys).symm
          simpa [mergeRun] using hp.trans hq
        · simpa [mergeRun] using (this.2.1.cons y)
        · simpa [mergeRun] using (this.2.2.cons₂ y)

/-- C6: merge order preservation (spec §8, `merge.get` in
`realtime/ops/merge.py` and `outspeed/ops/merge.py`).  For two inputs
of `N` items each and any scheduling of the two forwarding tasks that
lets each forward all its items, the merged output has exactly `2·N`
items and is a permutation of the two inputs in which each input occurs
as a subsequence (nothing duplicated, dropped, or reordered within its
source). -/
theorem claim6_merge_order_preserving {α : Type} (N : Nat)
    (sched : List Bool) (xs ys : List α)
    (hx : xs.length = N) (hy : ys.length = N)
    (h1 : N ≤ sched.count true) (h2 : N ≤ sched.count false) :
    (mergeRun sched xs ys).length = 2 * N
    ∧ (mergeRun sched xs ys).Perm (xs ++ ys)
    ∧ xs.Sublist (mergeRun sched xs ys)
    ∧ ys.Sublist (mergeRun sched xs ys) := by
  have hs := mergeRun_spec sched xs ys (by omega) (by omega)
  refine ⟨?_, hs.1, hs.2.1, hs.2.2⟩
  rw [hs.1.length_eq]
  simp [hx, hy]
  omega

/-- Witness for C6: inputs `[0,1]` and `[2,3]`, alternating schedule. -/
theorem claim6_merge_order_preserving_witness :
    (mergeRun [true, false, true, false] [0, 1] [2, 3]).length = 2 * 2
    ∧ (mergeRun [true, false, true, false] [0, 1] [2, 3]).Perm ([0, 1] ++ [2, 3])
    ∧ [0, 1].Sublist (mergeRun [true, false, true, false] [0, 1] [2, 3])
    ∧ [2, 3].Sublist (mergeRun [true, false, true, false] [0, 1] [2, 3]) :=
  claim6_merge_order_preserving 2 [true, false, true, false] [0, 1] [2, 3]
    rfl rfl (by decide) (by decide)

/-- One `in_q.get_nowait()` inside the emission branch of
`combine_latest.run`: the consumed item (as a singleton) and the
successor stream. -/
def clPop {α : Type} (q : StreamM α) : List α × StreamM α :=
  match get_nowait q with
  | none => ([], q)
  | some p => ([p.1], p.2)

/-- One iteration of `combine_latest.run`
(`realtime/ops/combine_latest.py`): if any input reports `empty()` the
task sleeps (state unchanged); otherwise it dequeues one item from each
input and appends it to the corresponding output queue. -/
def clStep {α : Type} (s : List (StreamM α) × List (List α)) :
    List (StreamM α) × List (List α) :=
  if s.1.any fun q => q.queue.isEmpty then s
  else (s.1.map fun q => (clPop q).2,
        (s.1.zip s.2).map fun p => p.2 ++ (clPop p.1).1)

theorem clPop_contents {α : Type} (q : StreamM α) (h : q.queue ≠ []) :
    contents (clPop q).2 = (contents q).tail
    ∧ (clPop q).1 = (contents q).take 1 := by
  cases q with
  | mk qu c cl =>
    cases c with
    | cons x c => simp [clPop, get_nowait, contents]
    | nil =>
      cases qu with
      | nil => simp [queue] at h
      | cons z qu => simp [clPop, get_nowait, contents]

/-- C7: `combine_latest` gating (spec §4.1,
`realtime/ops/combine_latest.py`).  When some input holds no buffered
item at all the iteration only backs off (no emission, nothing
consumed); when every input's buffer is non-empty the iteration
consumes exactly the oldest buffered item of each input and appends
exactly that item to the corresponding output — so an emission happens
only when every input has at least one buffered item, and consumes one
item per input. -/
theorem claim7_combine_latest {α : Type}
    (ins : List (StreamM α)) (outs : List (List α)) :
    ((∃ q ∈ ins, qsize q = 0) → clStep (ins, outs) = (ins, outs))
    ∧ ((∀ q ∈ ins, q.queue ≠ []) →
        (clStep (ins, outs)).1.map contents = ins.map fun q => (contents q).tail)
    ∧ ((∀ q ∈ ins, q.queue ≠ []) →
        (clStep (ins, outs)).2
          = (ins.zip outs).map fun p => p.2 ++ (contents p.1).take 1)
    ∧ ((∀ q ∈ ins, q.queue ≠ []) → ∀ q ∈ ins, 1 ≤ qsize q) := by
  refine ⟨?_, ?_, ?_, ?_⟩
  · rintro ⟨q, hq, hsize⟩
    have hempty : q.queue.isEmpty = true := by
      cases q with
      | mk qu c cl =>
        simp [qsize] at hsize
        simp [queue, hsize.1]
    rw [clStep, if_pos]
    exact List.any_eq_true.mpr ⟨q, hq, hempty⟩
  · intro h
    have hna : (ins.any fun q => q.queue.isEmpty) = false := by
      rw [List.any_eq_false]
      intro q hq
      simpa [List.isEmpty_iff] using h q hq
    rw [clStep, if_neg (by simp [hna])]
    simp only [List.map_map]
    exact List.map_congr_left fun q hq => (clPop_contents q (h q hq)).1
  · intro h
    have hna : (ins.any fun q => q.queue.isEmpty) = false := by
      rw [List.any_eq_false]
      intro q hq
      simpa [List.isEmpty_iff] using h q hq
    rw [clStep, if_neg (by simp [hna])]
    refine List.map_congr_left fun p hp => ?_
    have hmem : p.1 ∈ ins := List.of_mem_zip hp |>.1
    rw [(clPop_contents p.1 (h p.1 hmem)).2]
  · intro h q hq
    have := h q hq
    cases q with
    | mk qu c cl =>
      cases qu with
      | nil => simp [queue] at this
      | cons z qu => simp [qsize]; omega

/-- Witness for C7: two inputs with buffered items `[1]` and `[2,3]`. -/
theorem claim7_combine_latest_witness :
    (clStep ([StreamM.mk [1] [] [], StreamM.mk [2, 3] [] []], [[], []])).2
      = [[1], [2]] := by
  have h := (claim7_combine_latest
    [StreamM.mk [1] [] [], StreamM.mk [2, 3] [] []] [[], []]).2.2.1
    (by decide)
  rw [h]
  rfl

end StreamOps

/-! ## Voice-activity detection state machine -/

/-- `realtime.utils.vad.VADState` (source file absent under `src/`; the
four values are fixed by the spec and by `outspeed/utils/vad.py`). -/
inductive VADState : Type where
  | QUIET
  | STARTING
  | SPEAKING
  | STOPPING
deriving DecidableEq, Repr

/-- The `SileroVAD` constructor parameters that the per-frame loop
reads, plus the constant per-chunk duration
`_get_speech_duration_seconds` (chunk bytes / (rate · channels · 2)). -/
structure VadConfig where
  activationThreshold : ℚ
  minVolume : ℚ
  minSpeechDuration : ℚ
  minSilenceDuration : ℚ
  smoothingFactor : ℚ
  frameDuration : ℚ

/-- The mutable state of `SileroVAD` threaded through `execute_vad`:
`_vad_state`, `_speech_duration_seconds`, `_silence_duration_seconds`,
`_prev_volume`. -/
structure VadS where
  state : VADState
  speechDuration : ℚ
  silenceDuration : ℚ
  prevVolume : ℚ
deriving DecidableEq, Repr

/-- Modelled from the spec: `exp_smoothing` lives in
`realtime/utils/audio.py`, which is not under `src/`; the spec gives
`smoothed = α·current + (1-α)·previous`. -/
def expSmoothing (current prev a : ℚ) : ℚ :=
  a * current + (1 - a) * prev

/-- One iteration of the inner chunk loop of `SileroVAD.execute_vad`
(`realtime/plugins/silero_vad.py` lines 84–117) on a frame whose neural
confidence and raw volume are given: smooth the volume, compute
`speaking`, move QUIET/STOPPING to STARTING (resp. STARTING/SPEAKING to
STOPPING) while accumulating the speech (resp. silence) duration, then
promote STARTING to SPEAKING (resp. STOPPING to QUIET) when the
accumulated duration reaches the threshold, resetting both
accumulators. -/
def execVadStep (cfg : VadConfig) (s : VadS) (confidence rawVolume : ℚ) : VadS :=
  let volume := expSmoothing rawVolume s.prevVolume cfg.smoothingFactor
  let s1 :=
    if cfg.activationThreshold ≤ confidence ∧ cfg.minVolume ≤ volume then
      { state := if s.state = .QUIET ∨ s.state = .STOPPING then .STARTING else s.state
        speechDuration := s.speechDuration + cfg.frameDuration
        silenceDuration := s.silenceDuration
        prevVolume := volume }
    else
      { state := if s.state = .STARTING ∨ s.state = .SPEAKING then .STOPPING else s.state
        speechDuration := s.speechDuration
        silenceDuration := s.silenceDuration + cfg.frameDuration
        prevVolume := volume }
  if s1.state = .STARTING ∧ cfg.minSpeechDuration ≤ s1.speechDuration then
    { s1 with state := .SPEAKING, speechDuration := 0, silenceDuration := 0 }
  else if s1.state = .STOPPING ∧ cfg.minSilenceDuration ≤ s1.silenceDuration then
    { s1 with state := .QUIET, speechDuration := 0, silenceDuration := 0 }
  else s1

/-- The configuration used by the C3 counterexample: the defaults of
`SileroVAD.__init__` with `min_volume = 0`, at 8 kHz where one Silero
chunk lasts 256/8000 = 4/125 s. -/
def exVadCfg : VadConfig :=
  { activationThreshold := 1/2
    minVolume := 0
    minSpeechDuration := 1/5
    minSilenceDuration := 1/4
    smoothingFactor := 1/5
    frameDuration := 4/125 }

/-- C3 counterexample: the claimed transition relation fails on the
code.  From QUIET, one speaking frame moves to STARTING; the next
non-speaking frame moves to STOPPING, not (as the claim states) back to
QUIET; and a speaking frame from STOPPING then moves to STARTING, not
(as the claim states) to SPEAKING. -/
theorem claim3_counterexample :
    (execVadStep exVadCfg
      (execVadStep exVadCfg ⟨.QUIET, 0, 0, 0⟩ 1 1) 0 0).state = .STOPPING
    ∧ (execVadStep exVadCfg
        (execVadStep exVadCfg
          (execVadStep exVadCfg ⟨.QUIET, 0, 0, 0⟩ 1 1) 0 0) 1 1).state
        = .STARTING := by
  have h1 : execVadStep exVadCfg ⟨.QUIET, 0, 0, 0⟩ 1 1
      = ⟨.STARTING, 4/125, 0, 1/5⟩ := by
    norm_num [execVadStep, expSmoothing, exVadCfg]
  have h2 : execVadStep exVadCfg ⟨.STARTING, 4/125, 0, 1/5⟩ 0 0
      = ⟨.STOPPING, 4/125, 4/125, 4/25⟩ := by
    norm_num [execVadStep, expSmoothing, exVadCfg]
  have h3 : execVadStep exVadCfg ⟨.STOPPING, 4/125, 4/125, 4/25⟩ 1 1
      = ⟨.STARTING, 8/125, 4/125, 41/125⟩ := by
    norm_num [execVadStep, expSmoothing, exVadCfg]
  rw [h1, h2, h3]
  exact ⟨rfl, rfl⟩

/-- The per-frame transition table as the amended claim states it,
written state-by-state: a `(state, speaking)` pair determines the next
register value and the two accumulators; speech accumulates on every
speaking frame and silence on every non-speaking frame, and the
accumulators are reset only at the STARTING→SPEAKING and
STOPPING→QUIET promotions (which can fire in the same frame that
entered STARTING resp. STOPPING). -/
def vadSpecStep (cfg : VadConfig) (st : VADState) (speech silence : ℚ)
    (speaking : Bool) : VADState × ℚ × ℚ :=
  match st, speaking with
  | .QUIET, true =>
    if cfg.minSpeechDuration ≤ speech + cfg.frameDuration then (.SPEAKING, 0, 0)
    else (.STARTING, speech + cfg.frameDuration, silence)
  | .QUIET, false => (.QUIET, speech, silence + cfg.frameDuration)
  | .STARTING, true =>
    if cfg.minSpeechDuration ≤ speech + cfg.frameDuration then (.SPEAKING, 0, 0)
    else (.STARTING, speech + cfg.frameDuration, silence)
  | .STARTING, false =>
    if cfg.minSilenceDuration ≤ silence + cfg.frameDuration then (.QUIET, 0, 0)
    else (.STOPPING, speech, silence + cfg.frameDuration)
  | .SPEAKING, true => (.SPEAKING, speech + cfg.frameDuration, silence)
  | .SPEAKING, false =>
    if cfg.minSilenceDuration ≤ silence + cfg.frameDuration then (.QUIET, 0, 0)
    else (.STOPPING, speech, silence + cfg.frameDuration)
  | .STOPPING, true =>
    if cfg.minSpeechDuration ≤ speech + cfg.frameDuration then (.SPEAKING, 0, 0)
    else (.STARTING, speech + cfg.frameDuration, silence)
  | .STOPPING, false =>
    if cfg.minSilenceDuration ≤ silence + cfg.frameDuration then (.QUIET, 0, 0)
    else (.STOPPING, speech, silence + cfg.frameDuration)

/-- C3 amended: per frame, `speaking` is exactly
`confidence ≥ activation_threshold ∧ smoothed_volume ≥ min_volume`
with the spec's exponential smoothing, the smoothed volume is stored as
the next `_prev_volume`, and the `(state, accumulators)` register
follows exactly the amended transition table `vadSpecStep`: QUIET and
STOPPING move to STARTING on a speaking frame (promoting further to
SPEAKING in the same frame only when the un-reset speech accumulator
already reaches `min_speech_duration`); STARTING and SPEAKING move to
STOPPING on a non-speaking frame (reaching QUIET in the same frame only
when the accumulated silence reaches `min_silence_duration`). -/
theorem claim3_vad_transitions_amended (cfg : VadConfig) (s : VadS)
    (confidence rawVolume : ℚ) :
    (execVadStep cfg s confidence rawVolume).prevVolume
      = expSmoothing rawVolume s.prevVolume cfg.smoothingFactor
    ∧ ((execVadStep cfg s confidence rawVolume).state,
        (execVadStep cfg s confidence rawVolume).speechDuration,
        (execVadStep cfg s confidence rawVolume).silenceDuration)
      = vadSpecStep cfg s.state s.speechDuration s.silenceDuration
          (decide (cfg.activationThreshold ≤ confidence
            ∧ cfg.minVolume ≤ expSmoothing rawVolume s.prevVolume
                cfg.smoothingFactor)) := by
  by_cases h : cfg.activationThreshold ≤ confidence
      ∧ cfg.minVolume ≤ expSmoothing rawVolume s.prevVolume cfg.smoothingFactor
  · cases hst : s.state <;>
      simp [execVadStep, vadSpecStep, h, hst] <;>
      split_ifs <;> simp_all
  · cases hst : s.state <;>
      simp [execVadStep, vadSpecStep, h, hst] <;>
      split_ifs <;> simp_all

/-! ## Audio output pacing (`AudioRTCDriver.recv`) -/

/-- The pacing state of `AudioRTCDriver.recv`: `self._start` (initially
`None`), the current wall-clock time, and the total time spent in
`asyncio.sleep` so far (an observer variable for the proofs). -/
structure RecvS where
  start : Option ℚ
  now : ℚ
  slept : ℚ
deriving DecidableEq, Repr

/-- One call of `AudioRTCDriver.recv` on a frame of declared duration
`dur` (`frame.samples / frame.sample_rate`) that becomes available at
time `arrival`: the call returns from `get()` at `max now arrival`; on
the first frame `self._start = time.time() + data_time`; afterwards
`wait = self._start - time.time() - data_time`, the coroutine sleeps
`wait` when positive, and `self._start = max(self._start, time.time())
+ data_time`. -/
def recvStep : RecvS → ℚ → ℚ → RecvS
  | ⟨none, now, slept⟩, arrival, dur =>
    ⟨some (max now arrival + dur), max now arrival, slept⟩
  | ⟨some st, now, slept⟩, arrival, dur =>
    let now0 := max now arrival
    let wait := st - now0 - dur
    if 0 < wait then ⟨some (max st (now0 + wait) + dur), now0 + wait, slept + wait⟩
    else ⟨some (max st now0 + dur), now0, slept⟩

/-- A sequence of `recv` calls over frames given as
(arrival time, declared duration) pairs. -/
def recvRun (s : RecvS) (frames : List (ℚ × ℚ)) : RecvS :=
  frames.foldl (fun t f => recvStep t f.1 f.2) s

theorem recvRun_cons (s : RecvS) (f : ℚ × ℚ) (fs : List (ℚ × ℚ)) :
    recvRun s (f :: fs) = recvRun (recvStep s f.1 f.2) fs := rfl

theorem recvRun_append (s : RecvS) (l₁ l₂ : List (ℚ × ℚ)) :
    recvRun s (l₁ ++ l₂) = recvRun (recvRun s l₁) l₂ :=
  List.foldl_append ..

theorem recvRun_replicate (t0 d : ℚ) (hd : 0 < d) (k : Nat) :
    recvRun ⟨none, t0, 0⟩ (List.replicate (k + 2) (t0, d))
      = ⟨some (t0 + (k + 2) * d), t0 + k * d, k * d⟩ := by
  induction k with
  | zero =>
    have e1 : recvStep ⟨none, t0, 0⟩ t0 d = ⟨some (t0 + d), t0, 0⟩ := by
      simp [recvStep]
    have e2 : recvStep ⟨some (t0 + d), t0, 0⟩ t0 d = ⟨some (t0 + d + d), t0, 0⟩ := by
      simp only [recvStep, max_self]
      rw [if_neg (by linarith)]
      rw [max_eq_left (by linarith)]
    show recvRun ⟨none, t0, 0⟩ [(t0, d), (t0, d)] = _
    rw [recvRun_cons, e1, recvRun_cons, e2]
    simp only [recvRun, List.foldl_nil, RecvS.mk.injEq, Option.some.injEq]
    refine ⟨by push_cast; ring, by push_cast; ring, by push_cast; ring⟩
  | succ k ih =>
    have hkd : (0 : ℚ) ≤ k * d := by positivity
    have estep : recvStep ⟨some (t0 + (k + 2) * d), t0 + k * d, k * d⟩ t0 d
        = ⟨some (t0 + (k + 3) * d), t0 + (k + 1) * d, (k + 1) * d⟩ := by
      simp only [recvStep]
      rw [max_eq_left (by linarith)]
      rw [if_pos (by ring_nf; linarith)]
      rw [max_eq_left (by ring_nf; linarith)]
      simp only [RecvS.mk.injEq, Option.some.injEq]
      refine ⟨by ring, by ring, by ring⟩
    have hrepl : List.replicate (k + 1 + 2) (t0, d)
        = List.replicate (k + 2) (t0, d) ++ [(t0, d)] := by
      rw [← List.replicate_succ' (k + 2) ((t0 : ℚ), d)]
    rw [hrepl, recvRun_append, ih]
    show recvStep ⟨some (t0 + (↑k + 2) * d), t0 + ↑k * d, ↑k * d⟩ t0 d = _
    rw [estep]
    simp only [RecvS.mk.injEq, Option.some.injEq]
    refine ⟨by push_cast; ring, by push_cast; ring, by push_cast; ring⟩

theorem recv_no_sleep_aux (frames : List (ℚ × ℚ)) (a d sl : ℚ)
    (hd : 0 ≤ d)
    (hdur : ∀ p ∈ frames, 0 ≤ p.2)
    (hch : List.Chain (fun p q : ℚ × ℚ => p.1 + p.2 ≤ q.1) (a, d) frames) :
    (recvRun ⟨some (a + d), a, sl⟩ frames).slept = sl := by
  induction frames generalizing a d sl with
  | nil => rfl
  | cons f fs ih =>
    obtain ⟨hstep, hch'⟩ := List.chain_cons.mp hch
    have hfd : 0 ≤ f.2 := hdur f (List.mem_cons_self f fs)
    have hda : a ≤ f.1 := by linarith
    have e : recvStep ⟨some (a + d), a, sl⟩ f.1 f.2 = ⟨some (f.1 + f.2), f.1, sl⟩ := by
      simp only [recvStep]
      rw [max_eq_right hda, if_neg (by simp; linarith), max_eq_right (by linarith)]
    rw [recvRun_cons, e]
    exact ih f.1 f.2 sl hfd (fun p hp => hdur p (List.mem_cons_of_mem f hp)) hch'

/-- C8: pacing correctness (spec §4.4 and §8, `AudioRTCDriver.recv`).
Fast producer: when `N` frames of duration `d` are all available
immediately at `t0`, the pump finishes emitting them no earlier than
`N·d − ε` after `t0` with `ε = 2·d` (the two frames of lead the driver
keeps in flight); it sleeps the difference.  Slow producer: when each
frame arrives no earlier than the previous frame's arrival plus that
frame's duration (production at or below real-time rate), the computed
wait is never positive, so the pump never sleeps. -/
theorem claim8_pacing (t0 d : ℚ) (N : Nat) (frames : List (ℚ × ℚ))
    (hd : 0 < d)
    (hdur : ∀ p ∈ frames, 0 ≤ p.2)
    (hslow : List.Chain' (fun p q : ℚ × ℚ => p.1 + p.2 ≤ q.1) frames)
    (hfirst : ∀ p ∈ frames.take 1, t0 ≤ p.1) :
    N * d - 2 * d ≤ (recvRun ⟨none, t0, 0⟩ (List.replicate N (t0, d))).now - t0
    ∧ (recvRun ⟨none, t0, 0⟩ frames).slept = 0 := by
  constructor
  · match N with
    | 0 => simp [recvRun]; linarith
    | 1 =>
      have e1 : recvStep ⟨none, t0, 0⟩ t0 d = ⟨some (t0 + d), t0, 0⟩ := by
        simp [recvStep]
      show _ ≤ (recvRun ⟨none, t0, 0⟩ [(t0, d)]).now - t0
      rw [recvRun_cons, e1]
      show (1 : ℚ) * d - 2 * d ≤ t0 - t0
      linarith
    | (k + 2) =>
      rw [recvRun_replicate t0 d hd k]
      push_cast
      linarith
  · match frames, hslow with
    | [], _ => rfl
    | f :: fs, hslow =>
      have hf1 : t0 ≤ f.1 := hfirst f (by simp)
      have e : recvStep ⟨none, t0, 0⟩ f.1 f.2 = ⟨some (f.1 + f.2), f.1, 0⟩ := by
        simp only [recvStep]
        rw [max_eq_right hf1]
      rw [recvRun_cons, e]
      exact recv_no_sleep_aux fs f.1 f.2 0
        (hdur f (List.mem_cons_self f fs))
        (fun p hp => hdur p (List.mem_cons_of_mem f hp)) hslow

/-- Witness for C8: three frames of duration 1 produced in real time
starting at 0; and three immediately-available frames for the
fast-producer bound. -/
theorem claim8_pacing_witness :
    (3 : ℚ) * 1 - 2 * 1
      ≤ (recvRun ⟨none, 0, 0⟩ (List.replicate 3 ((0 : ℚ), (1 : ℚ)))).now - 0
    ∧ (recvRun ⟨none, 0, 0⟩ [((0 : ℚ), (1 : ℚ)), (1, 1), (2, 1)]).slept = 0 := by
  have h := claim8_pacing 0 1 3 [((0 : ℚ), (1 : ℚ)), (1, 1), (2, 1)]
    (by norm_num)
    (by intro p hp; fin_cases hp <;> norm_num)
    (by refine List.chain'_cons.mpr ⟨by norm_num, List.chain'_cons.mpr ⟨by norm_num, ?_⟩⟩
        exact List.chain'_singleton _)
    (by intro p hp; fin_cases hp; norm_num)
  simpa using h

/-! ## Session clock (`realtime/utils/clock.py`, `outspeed/utils/clock.py`) -/

/-- `Clock.start_playback`: set the class attribute `start_time` at the
first access only.  `tau` is the current `time.time()`. -/
def clockStartPlayback (tau : ℚ) (st : Option ℚ) : Option ℚ :=
  match st with
  | none => some tau
  | some t => some t

/-- `Clock.get_playback_time`: run `start_playback`, then return
`time.time() - start_time` (both `time.time()` reads of one invocation
are the same instant `tau`).  Returns the read together with the new
`start_time`. -/
def clockGetPlaybackTime (tau : ℚ) (st : Option ℚ) : ℚ × Option ℚ :=
  match st with
  | none => (tau - tau, some tau)
  | some t => (tau - t, some t)

/-- `Clock.increment_playback_time(seconds)` (only in the `realtime`
variant): run `start_playback`, then `start_time += seconds`. -/
def clockIncrementPlaybackTime (tau seconds : ℚ) (st : Option ℚ) : Option ℚ :=
  match st with
  | none => some (tau + seconds)
  | some t => some (t + seconds)

/-- C9 counterexample: with `increment_playback_time` among the class's
public operations, reads are not monotone.  First access at time 0
reads 0 and lazily sets the epoch; `increment_playback_time(5)` moves
the epoch forward; the next read at time 1 — wall-clock strictly later —
returns −4, strictly below the earlier read. -/
theorem claim9_counterexample :
    (clockGetPlaybackTime 0 none).1 = 0
    ∧ (clockGetPlaybackTime 1
        (clockIncrementPlaybackTime 0 5 (clockGetPlaybackTime 0 none).2)).1 = -4
    ∧ ¬ ((clockGetPlaybackTime 0 none).1
        ≤ (clockGetPlaybackTime 1
            (clockIncrementPlaybackTime 0 5 (clockGetPlaybackTime 0 none).2)).1) := by
  norm_num [clockGetPlaybackTime, clockIncrementPlaybackTime]

/-- The operations of the `outspeed` Clock (the `realtime` Clock minus
`increment_playback_time`), each tagged with the `time.time()` instant
at which it runs. -/
inductive ClockOp : Type where
  | start (tau : ℚ)
  | get (tau : ℚ)

/-- The wall-clock instant of an operation. -/
def opTime : ClockOp → ℚ
  | .start tau => tau
  | .get tau => tau

/-- The instant of a `get` operation, `none` for `start`. -/
def getTau : ClockOp → Option ℚ
  | .start _ => none
  | .get tau => some tau

/-- Run a trace of Clock operations from a given `start_time`,
collecting the values returned by the `get_playback_time` calls in
order. -/
def runClock : Option ℚ → List ClockOp → Option ℚ × List ℚ
  | st, [] => (st, [])
  | st, .start tau :: ops => runClock (clockStartPlayback tau st) ops
  | st, .get tau :: ops =>
    let p := clockGetPlaybackTime tau st
    let r := runClock p.2 ops
    (r.1, p.1 :: r.2)

theorem runClock_some_reads (t : ℚ) (ops : List ClockOp) :
    (runClock (some t) ops).2 = (ops.filterMap getTau).map (fun x => x - t) := by
  induction ops with
  | nil => rfl
  | cons op ops ih =>
    cases op with
    | start tau => simpa [runClock, clockStartPlayback, getTau] using ih
    | get tau => simp [runClock, clockGetPlaybackTime, getTau, ih]

theorem getTau_sublist (ops : List ClockOp) :
    (ops.filterMap getTau).Sublist (ops.map opTime) := by
  induction ops with
  | nil => simp
  | cons op ops ih =>
    cases op with
    | start tau =>
      simpa [getTau, opTime] using ih.cons (opTime (.start tau))
    | get tau => simpa [getTau, opTime] using ih.cons₂ tau

/-- C9 amended: the Clock is lazily initialized at its first access
(the first `get_playback_time` on an unset clock sets the epoch to that
access instant and later calls keep it), and along any trace of
`start_playback`/`get_playback_time` operations — the whole public
interface of the `outspeed` Clock — run at non-decreasing wall-clock
instants, each read is ≥ every earlier read.  The `realtime` variant's
`increment_playback_time` breaks this (see the counterexample). -/
theorem claim9_clock_monotone_amended (ops : List ClockOp)
    (hmono : List.Chain' (fun a b => opTime a ≤ opTime b) ops) :
    List.Pairwise (· ≤ ·) (runClock none ops).2
    ∧ (∀ tau : ℚ, (clockGetPlaybackTime tau none).2 = some tau)
    ∧ (∀ tau t : ℚ, (clockGetPlaybackTime tau (some t)).2 = some t) := by
  have hpw : List.Pairwise (· ≤ ·) (ops.map opTime) :=
    List.chain'_iff_pairwise.mp ((List.chain'_map opTime).mpr hmono)
  refine ⟨?_, fun tau => rfl, fun tau t => rfl⟩
  have key : ∀ (t : ℚ) (l : List ClockOp),
      List.Pairwise (· ≤ ·) (l.map opTime) →
      List.Pairwise (· ≤ ·) ((runClock (some t) l).2) := by
    intro t l hl
    rw [runClock_some_reads]
    have hsub : List.Pairwise (· ≤ ·) (l.filterMap getTau) :=
      hl.sublist (getTau_sublist l)
    rw [List.pairwise_map]
    exact hsub.imp fun hab => by linarith
  cases ops with
  | nil => simp [runClock]
  | cons op ops =>
    cases op with
    | start tau =>
      have hpw' := List.pairwise_cons.mp
        (show List.Pairwise (· ≤ ·) (tau :: ops.map opTime) by
          simpa [opTime] using hpw)
      exact key tau ops hpw'.2
    | get tau =>
      have hpw' := List.pairwise_cons.mp
        (show List.Pairwise (· ≤ ·) (tau :: ops.map opTime) by
          simpa [opTime] using hpw)
      show List.Pairwise (· ≤ ·)
        ((tau - tau) :: (runClock (some tau) ops).2)
      rw [List.pairwise_cons]
      constructor
      · intro x hx
        rw [runClock_some_reads, List.mem_map] at hx
        obtain ⟨y, hy, rfl⟩ := hx
        have hy' : y ∈ ops.map opTime :=
          (getTau_sublist ops).subset hy
        have := hpw'.1 y hy'
        linarith
      · exact key tau ops hpw'.2

/-- Witness for C9 at the trace `get@0, start@1, get@2`. -/
theorem claim9_clock_monotone_amended_witness :
    List.Pairwise (· ≤ ·)
      (runClock none [ClockOp.get 0, ClockOp.start 1, ClockOp.get 2]).2
    ∧ (∀ tau : ℚ, (clockGetPlaybackTime tau none).2 = some tau)
    ∧ (∀ tau t : ℚ, (clockGetPlaybackTime tau (some t)).2 = some t) :=
  claim9_clock_monotone_amended [ClockOp.get 0, ClockOp.start 1, ClockOp.get 2]
    (by refine List.chain'_cons.mpr ⟨by norm_num [opTime],
          List.chain'_cons.mpr ⟨by norm_num [opTime], List.chain'_singleton _⟩⟩)

/-! ## Interrupt (barge-in) protocol of the outspeed plugins -/

/-- Modelled from the spec: `outspeed/streams.py` is not under `src/`
(only its callers in `outspeed/plugins/` are); per spec §4.1 a Stream
is an ordered FIFO mailbox, and the interrupt watchers touch it only
through the inherited `asyncio.Queue` operations `empty()`,
`get_nowait()` and `qsize()`.  The queues of an interruptible stage are
therefore plain FIFO lists here; `qsize` is the length and `empty()` is
`List.isEmpty`.  `StageState` bundles a stage's input queue, output
queue, `_generating` flag, and the number of generation tasks started
so far (`restarts` is incremented when the watcher re-creates the
task). -/
structure StageState (α β : Type) where
  inputQ : List α
  outputQ : List β
  generating : Bool
  restarts : Nat
deriving DecidableEq, Repr

/-- The watcher's drain loop
`while not q.empty(): q.get_nowait()`. -/
def drainLoop {α : Type} : List α → List α
  | [] => []
  | _ :: t => drainLoop t

theorem drainLoop_eq_nil {α : Type} (l : List α) : drainLoop l = [] := by
  induction l with
  | nil => rfl
  | cons x t ih => simpa [drainLoop] using ih

/-- One wake-up of `OpenAILLM._interrupt` on a VAD value: when it is
SPEAKING and the input queue, the output queue, or `_generating` is
live, the watcher cancels the generation task (and the tool tasks),
drains the output queue, drains the input queue, clears `_generating`,
and starts a fresh generation task; otherwise nothing happens. -/
def llmInterruptStep {α β : Type} (vad : VADState) (s : StageState α β) :
    StageState α β :=
  if vad = .SPEAKING ∧ (s.inputQ.isEmpty = false ∨ s.outputQ.isEmpty = false
      ∨ s.generating = true) then
    { inputQ := drainLoop s.inputQ
      outputQ := drainLoop s.outputQ
      generating := false
      restarts := s.restarts + 1 }
  else s

/-- One wake-up of `ElevenLabsTTS._interrupt`: the trigger condition
checks only `not self.input_queue.empty() or not
self.output_queue.empty()` — `self._generating` is NOT part of it.
When triggered, the watcher cancels the generation task, drains the
output queue, drains the input queue, clears `_generating`, and starts
a fresh generation task. -/
def ttsInterruptStep {α β : Type} (vad : VADState) (s : StageState α β) :
    StageState α β :=
  if vad = .SPEAKING ∧ (s.inputQ.isEmpty = false ∨ s.outputQ.isEmpty = false) then
    { inputQ := drainLoop s.inputQ
      outputQ := drainLoop s.outputQ
      generating := false
      restarts := s.restarts + 1 }
  else s

/-- C2 counterexample: `ElevenLabsTTS._interrupt` receives SPEAKING
while the stage is mid-generation (`_generating = True`) but both
queues happen to be empty (e.g. the HTTP request is in flight and no
audio chunk has been flushed yet): contrary to the claim, the watcher
performs nothing — no cancellation and no restart (`restarts` stays 0,
`_generating` stays `true`). -/
theorem claim2_counterexample :
    ttsInterruptStep .SPEAKING (⟨[], [], true, 0⟩ : StageState String Nat)
      = ⟨[], [], true, 0⟩
    ∧ (ttsInterruptStep .SPEAKING
        (⟨[], [], true, 0⟩ : StageState String Nat)).restarts = 0
    ∧ (ttsInterruptStep .SPEAKING
        (⟨[], [], true, 0⟩ : StageState String Nat)).generating = true := by
  refine ⟨rfl, rfl, rfl⟩

/-- C2 amended, for the claim's two cited stages:
`OpenAILLM._interrupt` performs the cancel / drain-output /
drain-input / clear-flag / restart sequence whenever SPEAKING arrives
with unconsumed input, unconsumed output, or mid-generation;
`ElevenLabsTTS._interrupt` performs it only when the input or the
output queue is non-empty (mid-generation alone does not trigger it).
In either stage's triggered case, immediately afterwards both of its
queues have `qsize() == 0`, `_generating` is cleared, and a fresh
generation task has been started (so a subsequently written item is
processed). -/
theorem claim2_interrupt_drain_amended {α β : Type} (vad : VADState)
    (sL sT : StageState α β)
    (hL : vad = .SPEAKING ∧ (sL.inputQ.isEmpty = false
      ∨ sL.outputQ.isEmpty = false ∨ sL.generating = true))
    (hT : vad = .SPEAKING ∧ (sT.inputQ.isEmpty = false
      ∨ sT.outputQ.isEmpty = false)) :
    (llmInterruptStep vad sL).inputQ.length = 0
    ∧ (llmInterruptStep vad sL).outputQ.length = 0
    ∧ (llmInterruptStep vad sL).generating = false
    ∧ (llmInterruptStep vad sL).restarts = sL.restarts + 1
    ∧ (ttsInterruptStep vad sT).inputQ.length = 0
    ∧ (ttsInterruptStep vad sT).outputQ.length = 0
    ∧ (ttsInterruptStep vad sT).generating = false
    ∧ (ttsInterruptStep vad sT).restarts = sT.restarts + 1 := by
  rw [llmInterruptStep, if_pos hL, ttsInterruptStep, if_pos hT]
  simp [drainLoop_eq_nil]

/-- Witness for C2 (amended): an LLM stage with one queued input and a
TTS stage with one queued output item. -/
theorem claim2_interrupt_drain_witness :
    (llmInterruptStep .SPEAKING (⟨[1], [], true, 0⟩ : StageState Nat Nat)).inputQ.length = 0
    ∧ (llmInterruptStep .SPEAKING (⟨[1], [], true, 0⟩ : StageState Nat Nat)).outputQ.length = 0
    ∧ (llmInterruptStep .SPEAKING (⟨[1], [], true, 0⟩ : StageState Nat Nat)).generating = false
    ∧ (llmInterruptStep .SPEAKING (⟨[1], [], true, 0⟩ : StageState Nat Nat)).restarts = 0 + 1
    ∧ (ttsInterruptStep .SPEAKING (⟨[], [2], false, 3⟩ : StageState Nat Nat)).inputQ.length = 0
    ∧ (ttsInterruptStep .SPEAKING (⟨[], [2], false, 3⟩ : StageState Nat Nat)).outputQ.length = 0
    ∧ (ttsInterruptStep .SPEAKING (⟨[], [2], false, 3⟩ : StageState Nat Nat)).generating = false
    ∧ (ttsInterruptStep .SPEAKING (⟨[], [2], false, 3⟩ : StageState Nat Nat)).restarts = 3 + 1 :=
  claim2_interrupt_drain_amended .SPEAKING ⟨[1], [], true, 0⟩ ⟨[], [2], false, 3⟩
    (by exact ⟨rfl, Or.inl rfl⟩) (by exact ⟨rfl, Or.inr rfl⟩)

/-- Items read by `ElevenLabsTTS.synthesize_speech` from its input
queue: Python `None`, a `SessionData` marker, or a text chunk. -/
inductive TtsIn : Type where
  | pyNone
  | session
  | chunk (text : String)
deriving DecidableEq, Repr

/-- Items written to the TTS output queue: a forwarded `SessionData`
marker, an `AudioData` chunk (abstracted by an index), or the
terminating Python `None`. -/
inductive TtsOut : Type where
  | session
  | audio (n : Nat)
  | pyNone
deriving DecidableEq, Repr

/-- One iteration of the `ElevenLabsTTS.synthesize_speech` loop: get
the next chunk (blocking when the queue is empty); skip falsy chunks
(`None`, the empty string); forward a `SessionData` marker to the
output queue unchanged; otherwise set `_generating`, stream the
synthesized audio chunks (abstracted by `synth`) to the output, finish
with the terminating `None` and clear `_generating`. -/
def ttsSynthStep (synth : String → List Nat) (s : StageState TtsIn TtsOut) :
    StageState TtsIn TtsOut :=
  match s.inputQ with
  | [] => s
  | item :: rest =>
    match item with
    | .pyNone => { s with inputQ := rest }
    | .session => { s with inputQ := rest, outputQ := s.outputQ ++ [TtsOut.session] }
    | .chunk t =>
      if t = "" then { s with inputQ := rest }
      else { s with
        inputQ := rest
        outputQ := s.outputQ ++ (synth t).map TtsOut.audio ++ [TtsOut.pyNone]
        generating := false }

/-- C4 counterexample: a `SessionData` marker queued in the TTS input
while the interrupt watcher drains (the output holds one pending audio
item, so the drain triggers) is thrown away with everything else: after
the watcher runs, the input is empty and no marker was re-emitted on
the output, so the marker is never delivered downstream. -/
theorem claim4_counterexample :
    (ttsInterruptStep .SPEAKING
      (⟨[TtsIn.session], [TtsOut.audio 0], false, 0⟩
        : StageState TtsIn TtsOut)).inputQ = []
    ∧ TtsOut.session ∉ (ttsInterruptStep .SPEAKING
        (⟨[TtsIn.session], [TtsOut.audio 0], false, 0⟩
          : StageState TtsIn TtsOut)).outputQ
    ∧ (ttsInterruptStep .SPEAKING
        (⟨[TtsIn.session], [TtsOut.audio 0], false, 0⟩
          : StageState TtsIn TtsOut)).outputQ = [] := by
  refine ⟨rfl, by decide, rfl⟩

/-- C4 amended: a session marker is delivered downstream only when the
synthesis loop reads it outside a drain — `synthesize_speech` forwards
`SessionData` to the output unchanged; a marker still queued in the
stage's input or output when the interrupt drain runs is discarded
along with the rest of both queues. -/
theorem claim4_session_marker_amended (synth : String → List Nat)
    (s : StageState TtsIn TtsOut) (rest : List TtsIn) (vad : VADState)
    (hread : s.inputQ = TtsIn.session :: rest)
    (htrig : vad = .SPEAKING ∧ (s.inputQ.isEmpty = false
      ∨ s.outputQ.isEmpty = false)) :
    (ttsSynthStep synth s).outputQ = s.outputQ ++ [TtsOut.session]
    ∧ (ttsSynthStep synth s).inputQ = rest
    ∧ (ttsInterruptStep vad s).inputQ = []
    ∧ (ttsInterruptStep vad s).outputQ = [] := by
  refine ⟨?_, ?_, ?_, ?_⟩
  · rw [ttsSynthStep.eq_def, hread]
  · rw [ttsSynthStep.eq_def, hread]
  · rw [ttsInterruptStep, if_pos htrig]
    exact drainLoop_eq_nil _
  · rw [ttsInterruptStep, if_pos htrig]
    exact drainLoop_eq_nil _

/-- Witness for C4 (amended): the marker heads the input queue, one
audio item is pending on the output. -/
theorem claim4_session_marker_witness :
    (ttsSynthStep (fun _ => [])
        ⟨[TtsIn.session], [TtsOut.audio 0], false, 0⟩).outputQ
      = [TtsOut.audio 0] ++ [TtsOut.session]
    ∧ (ttsSynthStep (fun _ => [])
        ⟨[TtsIn.session], [TtsOut.audio 0], false, 0⟩).inputQ = []
    ∧ (ttsInterruptStep .SPEAKING
        (⟨[TtsIn.session], [TtsOut.audio 0], false, 0⟩
          : StageState TtsIn TtsOut)).inputQ = []
    ∧ (ttsInterruptStep .SPEAKING
        (⟨[TtsIn.session], [TtsOut.audio 0], false, 0⟩
          : StageState TtsIn TtsOut)).outputQ = [] :=
  claim4_session_marker_amended (fun _ => [])
    ⟨[TtsIn.session], [TtsOut.audio 0], false, 0⟩ [] .SPEAKING
    rfl ⟨rfl, Or.inl rfl⟩
